import Mathlib

/-
  Verification development for the `ara_pdf` text-extraction library.

  Shallow embedding: the Rust source in `src/` is translated into Lean
  definitions.  Machine floating-point numbers (`f64`) are modelled by `ℚ`;
  the claims settled here concern control flow, exact arithmetic identities
  and data-structure contents, none of which depend on rounding.  Fallible
  code (Rust panics, `Option`-returning iterator steps) is modelled with
  `Option`.  `HashMap` is modelled by an association list where `insert`
  prepends and `lookup` takes the most recent binding, which is exactly
  the observable insert/get semantics of `HashMap`.
-/

namespace AraPdf

/-! ## Transforms (euclid `Transform2D`, row-major 3×2 affine matrices)

`row_major(m11, m12, m21, m22, m31, m32)`; composition follows euclid:
`A.post_transform(B)` is "A then B" (row-vector convention, `A * B`) and
`A.pre_transform(B)` is `B * A`. -/

structure Transform where
  m11 : ℚ
  m12 : ℚ
  m21 : ℚ
  m22 : ℚ
  m31 : ℚ
  m32 : ℚ
  deriving Repr, DecidableEq

namespace Transform

/-- Row-major affine product `A * B` ("apply A, then B" on row vectors). -/
def mul (A B : Transform) : Transform :=
  { m11 := A.m11 * B.m11 + A.m12 * B.m21
    m12 := A.m11 * B.m12 + A.m12 * B.m22
    m21 := A.m21 * B.m11 + A.m22 * B.m21
    m22 := A.m21 * B.m12 + A.m22 * B.m22
    m31 := A.m31 * B.m11 + A.m32 * B.m21 + B.m31
    m32 := A.m31 * B.m12 + A.m32 * B.m22 + B.m32 }

def identity : Transform := ⟨1, 0, 0, 1, 0, 0⟩

def create_translation (tx ty : ℚ) : Transform := ⟨1, 0, 0, 1, tx, ty⟩

/-- euclid: `self.post_transform(mat)` = self then mat. -/
def post_transform (self mat : Transform) : Transform := mul self mat

/-- euclid: `self.pre_transform(mat)` = mat then self. -/
def pre_transform (self mat : Transform) : Transform := mul mat self

end Transform

/-! ## Text state and `show_text` (src/lib.rs:354-364, 389-447)

The `font` field of `TextState` holds `Option<Rc<dyn PdfFont>>`; for the
state-machine claims only its presence and identity matter, so fonts are
modelled by abstract identifiers and the interpreter is parameterised by a
width oracle `W : Option Nat → Nat → ℚ` standing for `font.get_width`. -/

structure TextState where
  font : Option Nat
  font_size : ℚ
  character_spacing : ℚ
  word_spacing : ℚ
  horizontal_scaling : ℚ
  leading : ℚ
  rise : ℚ
  tm : Transform
  deriving Repr, DecidableEq

/-- Spacing computed inside the `show_text` loop (src/lib.rs:416-424):
`character_spacing`, plus `word_spacing` when `c == 32 && length == 1`. -/
def spacing_for (ts : TextState) (c length : Nat) : ℚ :=
  ts.character_spacing + if c = 32 ∧ length = 1 then ts.word_spacing else 0

/-- One iteration of the `show_text` loop (src/lib.rs:404-444), restricted to
its effect on the text state: with `w0 = get_width(c)/1000` and `tj = 0`,
`tx = horizontal_scaling * ((w0 - tj/1000) * font_size + spacing)` and
`tm := tm.pre_transform(create_translation tx 0)`. -/
def show_text_step (get_width : Nat → ℚ) (ts : TextState) (c length : Nat) :
    TextState :=
  let w0 := get_width c / 1000
  let spacing := spacing_for ts c length
  let tj : ℚ := 0
  let tx := ts.horizontal_scaling * ((w0 - tj / 1000) * ts.font_size + spacing)
  let ty : ℚ := 0
  { ts with tm := ts.tm.pre_transform (Transform.create_translation tx ty) }

/-- The `show_text` loop over the decoded `(code, length)` pairs, as it acts
on the text state. -/
def show_text_tm (get_width : Nat → ℚ) (ts : TextState)
    (codes : List (Nat × Nat)) : TextState :=
  codes.foldl (fun t cl => show_text_step get_width t cl.1 cl.2) ts

/-! ## Width maps (`HashMap<CharCode, f64>` and the ToUnicode map)

`insert` prepends, `get` returns the most recent binding: observably the
same as `HashMap` insert/get. -/

def mapInsert {α : Type} (k : Nat) (v : α) (m : List (Nat × α)) :
    List (Nat × α) :=
  (k, v) :: m

def mapGet {α : Type} (m : List (Nat × α)) (k : Nat) : Option α :=
  (m.find? (fun p => p.1 == k)).map (fun p => p.2)

/-- Rust `as u32` cast of an `i64` (wraps modulo 2^32; `Int.emod` is
non-negative for a positive modulus, matching the wrapping cast). -/
def toU32 (n : Int) : Nat := (n % 4294967296).toNat

/-! ## CID fonts: `next_char` (src/font.rs:856-876) -/

structure CodeRange where
  width : Nat
  start : Nat
  /-- source field name: `end` (a Lean keyword) -/
  stop : Nat
  deriving Repr, DecidableEq

structure CIDRange where
  src_code_lo : Nat
  src_code_hi : Nat
  dst_CID_lo : Nat
  deriving Repr, DecidableEq

structure ByteMapping where
  codespace : List CodeRange
  cid : List CIDRange
  deriving Repr, DecidableEq

/-- The inner codespace scan of one iteration of the outer loop in
`next_char`: does any codespace range of this `width` contain `c`? -/
def codespace_hit (cs : List CodeRange) (c width : Nat) : Bool :=
  cs.any (fun r => decide (c ≥ r.start) && decide (c ≤ r.stop) &&
    decide (r.width = width))

/-- The labelled outer loop `for width in 1..=4` of `next_char`
(src/font.rs:859-868): on a hit, keep `(c, width)`; otherwise consume one
more byte (failing with `none` when the input is exhausted, as `iter.next()?`
does) and shift it into `c`.  The first argument counts the remaining
iterations (4 at entry); when it runs out the loop has ended with
`code == None` and `code?` returns `none`. -/
def cid_code_loop (cs : List CodeRange) :
    Nat → Nat → Nat → List Nat → Option ((Nat × Nat) × List Nat)
  | 0, _, _, _ => none
  | n + 1, width, c, bytes =>
    if codespace_hit cs c width then some ((c, width), bytes)
    else
      match bytes with
      | [] => none
      | b :: rest => cid_code_loop cs n (width + 1) (c * 256 + b) rest

/-- Source `PdfCIDFont::next_char` (src/font.rs:856-876) on an explicit byte list;
returns the emitted `(CharCode, width)` pair together with the bytes left in
the iterator.  Note the CID scan returns `code.0 + range.dst_CID_lo`
(src/font.rs:872): `src_code_lo` is *not* subtracted.  Both operands are
`u32` (`CharCode = u32` and the `CIDRange` fields), so the sum is the
wrapping u32 addition, taken modulo 2^32 here (release semantics; a debug
build would panic on the overflowing inputs, and on every non-overflowing
input the two agree). -/
def PdfCIDFont.next_char (enc : ByteMapping) (bytes : List Nat) :
    Option ((Nat × Nat) × List Nat) :=
  match bytes with
  | [] => none
  | b :: rest =>
    match cid_code_loop enc.codespace 4 1 b rest with
    | none => none
    | some ((c, width), rem) =>
      match enc.cid.find? (fun r => decide (c ≥ r.src_code_lo) &&
          decide (c ≤ r.src_code_hi)) with
      | some range => some (((c + range.dst_CID_lo) % 4294967296, width), rem)
      | none => none

/-! ## CID fonts: the `W` array (src/font.rs:799-824) -/

/-- The subset of `lopdf::Object` reached by the `W`-array loop. -/
inductive Object where
  | Integer (i : Int)
  | Real (q : ℚ)
  | Array (xs : List Object)
  deriving Repr

/-- Source `Object::as_i64`: `Ok` only on `Integer`; the `.expect(..)` panic is
modelled by `none`. -/
def Object.as_i64 : Object → Option Int
  | .Integer i => some i
  | _ => none

/-- Source `as_num` (src/lib.rs:344-352): integers and reals; otherwise panic. -/
def Object.as_num : Object → Option ℚ
  | .Integer i => some (i : ℚ)
  | .Real q => some q
  | _ => none

/-- The inner `for w in wa` loop of the `<c> [w1 w2 ...]` form
(src/font.rs:809-812): insert `(cid + j) as CharCode ↦ as_num(w)`. -/
def insert_widths_run (cid : Int) :
    Int → List Object → List (Nat × ℚ) → Option (List (Nat × ℚ))
  | _, [], widths => some widths
  | j, w :: rest, widths =>
    match w.as_num with
    | none => none
    | some q => insert_widths_run cid (j + 1) rest
        (mapInsert (toU32 (cid + j)) q widths)

/-- The `for id in c_first..c_last` loop of the `<c_first> <c_last> <w>`
form (src/font.rs:818-820); the Rust range is empty when
`c_last ≤ c_first`. -/
def insert_widths_range (c_first c_last : Int) (c_width : ℚ)
    (widths : List (Nat × ℚ)) : List (Nat × ℚ) :=
  (List.range (c_last - c_first).toNat).foldl
    (fun m j => mapInsert (toU32 (c_first + (j : Int))) c_width m) widths

/-- The `W`-array loop of `PdfCIDFont::new` (src/font.rs:803-824), with the
cursor `i` replaced by the list suffix `w[i..]`.  Faithful to the source:
the loop first inspects `w[i + 1]` (out of bounds panics, `none`); in the
non-array branch `c_first`, `c_last` and `c_width` are all read from
`w[i]` (src/font.rs:815-817) and then `i += 3` skips an element that was
never read. -/
def widths_from_W : List Object → List (Nat × ℚ) → Option (List (Nat × ℚ))
  | [], widths => some widths
  | _ :: [], _ => none
  | x :: y :: rest, widths =>
    match y with
    | .Array wa =>
      match x.as_i64 with
      | none => none
      | some cid =>
        match insert_widths_run cid 0 wa widths with
        | none => none
        | some widths2 => widths_from_W rest widths2
    | _ =>
      match x.as_i64 with
      | none => none
      | some c_first =>
        match x.as_i64 with
        | none => none
        | some c_last =>
          match x.as_num with
          | none => none
          | some c_width =>
            match rest with
            | [] => some (insert_widths_range c_first c_last c_width widths)
            | _ :: rest2 =>
              widths_from_W rest2
                (insert_widths_range c_first c_last c_width widths)

/-- The widths of a CID font: `W` present parses the array, else empty
(src/font.rs:801-824). -/
def PdfCIDFont.widths (w : Option (List Object)) : Option (List (Nat × ℚ)) :=
  match w with
  | some w => widths_from_W w []
  | none => some []

/-! ## Simple fonts: explicit widths (src/font.rs:315-334) and
`get_width` (src/font.rs:570-586) -/

/-- The `for w in widths` loop of `PdfSimpleFont::new` (src/font.rs:330-333):
insert `(first_char + i) as CharCode ↦ w`, incrementing `i`. -/
def simple_widths_loop (first_char : Int) :
    Int → List ℚ → List (Nat × ℚ) → List (Nat × ℚ)
  | _, [], m => m
  | i, w :: rest, m =>
    simple_widths_loop first_char (i + 1) rest
      (mapInsert (toU32 (first_char + i)) w m)

/-- Width-map construction from explicit `FirstChar`/`LastChar`/`Widths`
(src/font.rs:315-334).  The trailing
`assert_eq!(first_char + i - 1, last_char)` (src/font.rs:334) panics when it
fails; modelled by `none`. -/
def simple_font_widths (first_char last_char : Int) (widths : List ℚ) :
    Option (List (Nat × ℚ)) :=
  let m := simple_widths_loop first_char 0 widths []
  if first_char + (widths.length : Int) - 1 = last_char then some m else none

/-- The `MissingWidth` lookup of `PdfSimpleFont::new` (src/font.rs:389):
read from the *font* dictionary, default 0. -/
structure FontDescriptorDict where
  missingWidthEntry : Option ℚ
  deriving Repr, DecidableEq

structure FontDict where
  missingWidthEntry : Option ℚ
  descriptor : Option FontDescriptorDict
  deriving Repr, DecidableEq

/-- Source `get::<Option<f64>>(doc, font, b"MissingWidth").unwrap_or(0.)`
(src/font.rs:389): the key is looked up on the font dictionary itself. -/
def simple_font_missing_width (font : FontDict) : ℚ :=
  font.missingWidthEntry.getD 0

/-- Modelled from the spec wording of C7 ("the MissingWidth value taken from
the font descriptor, or 0 when the descriptor has no MissingWidth entry"),
for comparison with `simple_font_missing_width` above. -/
def missing_width_from_descriptor (font : FontDict) : ℚ :=
  (font.descriptor.bind FontDescriptorDict.missingWidthEntry).getD 0

structure PdfSimpleFont where
  widths : List (Nat × ℚ)
  missing_width : ℚ
  deriving Repr, DecidableEq

/-- Source `PdfSimpleFont::get_width` (src/font.rs:570-586): the map entry, else
`missing_width`. -/
def PdfSimpleFont.get_width (f : PdfSimpleFont) (id : Nat) : ℚ :=
  match mapGet f.widths id with
  | some w => w
  | none => f.missing_width

/-! ## `get_unicode_map` (src/font.rs:694-744)

The parsed CMap (`adobe_cmap_parser::get_unicode_map`) is taken as input: a
list of `(CharCode, byte list)` entries with pairwise distinct keys (it is
iterated from a `HashMap`).  `String::from_utf16` is modelled by a decoder
to Unicode scalar values: it fails exactly on unpaired surrogates. -/

/-- The per-entry loop body turning the byte vector into UTF-16 code units:
`assert!(v.len() % 2 == 0)` (panic modelled by `none`) and
`((v[i] as u16) << 8) | v[i+1]` (src/font.rs:709-715). -/
def bytes_to_utf16_units : List Nat → Option (List Nat)
  | [] => some []
  | _ :: [] => none
  | a :: b :: rest =>
    (bytes_to_utf16_units rest).map (fun units => (a * 256 + b) :: units)

/-- The pattern `[0xd800..=0xdfff]` (src/font.rs:716-723): a single code
unit lying in the surrogate range. -/
def is_surrogate_singleton : List Nat → Bool
  | [u] => decide (0xD800 ≤ u) && decide (u ≤ 0xDFFF)
  | _ => false

/-- Source `String::from_utf16` as a decoder to scalar values: a high surrogate
must be followed by a low surrogate; an unpaired surrogate fails (in the
source, `.unwrap()` then panics). -/
def utf16_decode : List Nat → Option (List Nat)
  | [] => some []
  | u :: rest =>
    if u < 0xD800 ∨ 0xDFFF < u then
      (utf16_decode rest).map (fun l => u :: l)
    else
      match rest with
      | [] => none
      | v :: rest2 =>
        if 0xD800 ≤ u ∧ u ≤ 0xDBFF ∧ 0xDC00 ≤ v ∧ v ≤ 0xDFFF then
          (utf16_decode rest2).map
            (fun l => (0x10000 + (u - 0xD800) * 0x400 + (v - 0xDC00)) :: l)
        else none

/-- The entry loop of `get_unicode_map` (src/font.rs:708-727): convert the
bytes to UTF-16BE units, `continue` on a singleton surrogate, otherwise
decode (panicking — `none` — on malformed UTF-16) and insert. -/
def get_unicode_map_entries :
    List (Nat × List Nat) → Option (List (Nat × List Nat))
  | [] => some []
  | (k, v) :: rest =>
    match bytes_to_utf16_units v with
    | none => none
    | some units =>
      if is_surrogate_singleton units then get_unicode_map_entries rest
      else
        match utf16_decode units with
        | none => none
        | some s =>
          (get_unicode_map_entries rest).map (fun m => (k, s) :: m)

/-! ## Plain-text sink: `output_character` (src/output.rs:378-420)

`x`, `y` are the components `(position.m31, position.m32)` of
`trm.post_transform(flip_ctm)` and `s` is the effective font size
`sqrt(vx * vy)`; they enter the separator decision only as opaque numbers,
so they are parameters here (the square root does not exist on ℚ). -/

structure PlainTextState where
  last_end : ℚ
  last_y : ℚ
  first_char : Bool
  deriving Repr, DecidableEq

/-- The separator writes of `output_character` (src/output.rs:394-413), in
program order.  The three `if`s are independent statements, not an
`else`-chain. -/
def separators (st : PlainTextState) (x y s : ℚ) : List String :=
  if st.first_char then
    (if |y - st.last_y| > s * 1.5 then ["\n"] else []) ++
      ((if x < st.last_end ∧ |y - st.last_y| > s * 0.5 then ["\n"] else []) ++
        (if x > st.last_end + s * 0.1 then [" "] else []))
  else []

/-- Source `PlainTextOutput::output_character` (src/output.rs:378-420): the string
appended to the writer and the updated sink state. -/
def PlainTextState.output_character (st : PlainTextState) (x y s width : ℚ)
    (ch : String) : PlainTextState × String :=
  (⟨x + width * s, y, false⟩, String.join (separators st x y s) ++ ch)

/-! ## `extract_text_by_pages` (src/lib.rs:779-793) and its from-memory and
encrypted variants (src/lib.rs:795-841)

Document loading plus decryption is abstracted to an `Except` value, and
`extract_text_by_page` to a function from page number to
`Except Unit String`.  The `while let Ok(..)` loop is given fuel (the Rust
loop terminates because any page number beyond the page count errors with
`PageNumberNotFound`). -/

/-- The `while let Ok(content) = extract_text_by_page(&doc, page_num)` loop
(src/lib.rs:786-790), starting at page `k`. -/
def collect_pages (f : Nat → Except Unit String) :
    Nat → Nat → List String
  | 0, _ => []
  | fuel + 1, k =>
    match f k with
    | .ok content => content :: collect_pages f fuel (k + 1)
    | .error _ => []

/-- Source `extract_text_by_pages` (src/lib.rs:779-793): load (and maybe decrypt)
the document, then collect pages from page 1; the result is always `Ok`
once the document loaded. -/
def extract_text_by_pages {Doc : Type} (load : Except Unit Doc)
    (page_text : Doc → Nat → Except Unit String) (fuel : Nat) :
    Except Unit (List String) :=
  match load with
  | .error e => .error e
  | .ok doc => .ok (collect_pages (page_text doc) fuel 1)

/-! ## The content-stream interpreter: `Processor::process_stream`
(src/processor.rs:26-374)

State-changing operators are modelled with their operands already resolved
(numbers as ℚ, matrices as `Transform`, fonts/colorspaces/SMask
dictionaries as abstract identifiers).  Output-sink events (`stroke`,
`fill`, `output_character`, `end_line`, …) carry no interpreter state and
are dropped; `show_text` is kept as its effect on the text state.
Operators listed in the source as unhandled diagnostics
(`G/g/RG/rg/K/k/i/J/j/M/d/ri/s/f*/B/B*/b/W/w*` and unknown operators) do
not change state and are not enumerated.  `Do` recursion constructs a fresh
interpreter state in the source (src/processor.rs:37-61 run again) and so
cannot touch the outer `gs`/`gs_stack`; it is likewise omitted. -/

inductive ColorSpace where
  | DeviceGray
  | DeviceRGB
  | DeviceCMYK
  | Pattern
  | Other (id : Nat)
  deriving Repr, DecidableEq

structure GraphicsState where
  ctm : Transform
  ts : TextState
  smask : Option Nat
  fill_colorspace : ColorSpace
  fill_color : List ℚ
  stroke_colorspace : ColorSpace
  stroke_color : List ℚ
  line_width : ℚ
  deriving Repr, DecidableEq

inductive PathOp where
  | MoveTo (x y : ℚ)
  | LineTo (x y : ℚ)
  | CurveTo (x1 y1 x2 y2 x y : ℚ)
  | Rect (x y w h : ℚ)
  | Close
  deriving Repr, DecidableEq

/-- Source `Path::current_point` (src/lib.rs:510-519); the panics (empty path,
`Rect`/`Close` terminus) are modelled by `none`. -/
def Path.current_point (ops : List PathOp) : Option (ℚ × ℚ) :=
  match ops.getLast? with
  | some (.MoveTo x y) => some (x, y)
  | some (.LineTo x y) => some (x, y)
  | some (.CurveTo _ _ _ _ x y) => some (x, y)
  | _ => none

structure InterpState where
  gs : GraphicsState
  gs_stack : List GraphicsState
  tlm : Transform
  path : List PathOp
  mc_stack : List Nat
  deriving Repr, DecidableEq

inductive TJItem where
  | str (codes : List (Nat × Nat))
  | num (n : ℚ)
  deriving Repr, DecidableEq

inductive Op where
  | BT
  | ET
  | cm (m : Transform)
  | CS (v : ColorSpace)
  | cs (v : ColorSpace)
  | SC (vals : List ℚ)
  | sc (vals : List ℚ)
  | TJ (items : List TJItem)
  | Tj (codes : List (Nat × Nat))
  | Tc (a : ℚ)
  | Tw (a : ℚ)
  | Tz (a : ℚ)
  | TL (a : ℚ)
  | Tf (fontId : Nat) (size : ℚ)
  | Ts (a : ℚ)
  | Tm (m : Transform)
  | Td (tx ty : ℚ)
  | TD (tx ty : ℚ)
  | Tstar
  | q
  | Q
  | gsApply (smaskEntry : Option (Option Nat))
  | w (a : ℚ)
  | m (x y : ℚ)
  | l (x y : ℚ)
  | c (x1 y1 x2 y2 x y : ℚ)
  | v (x2 y2 x y : ℚ)
  | y (x1 y1 x3 y3 : ℚ)
  | h
  | re (x yv wv hv : ℚ)
  | S
  | F
  | n
  | BMC (tag : Nat)
  | EMC
  deriving Repr, DecidableEq

/-- Source `show_text` (src/lib.rs:389-447) as its effect on the graphics state:
`ts.font.as_ref().unwrap()` panics (`none`) without a font; otherwise the
loop advances `ts.tm` per `show_text_step`. -/
def show_text_gs (W : Option Nat → Nat → ℚ) (gs : GraphicsState)
    (codes : List (Nat × Nat)) : Option GraphicsState :=
  match gs.ts.font with
  | none => none
  | some _ => some { gs with ts := show_text_tm (W gs.ts.font) gs.ts codes }

/-- A numeric `TJ` array element (src/processor.rs:125-148):
`tx = horizontal_scaling * ((0 - tj/1000) * font_size)`, pre-translate. -/
def tj_adjust (gs : GraphicsState) (tj : ℚ) : GraphicsState :=
  let ts := gs.ts
  let w0 : ℚ := 0
  let ty : ℚ := 0
  let tx := ts.horizontal_scaling * ((w0 - tj / 1000) * ts.font_size)
  { gs with ts :=
      { ts with tm := ts.tm.pre_transform (Transform.create_translation tx ty) } }

/-- The `TJ` array loop (src/processor.rs:118-156). -/
def tj_items (W : Option Nat → Nat → ℚ) (gs : GraphicsState) :
    List TJItem → Option GraphicsState
  | [] => some gs
  | .str codes :: rest =>
    match show_text_gs W gs codes with
    | none => none
    | some gs2 => tj_items W gs2 rest
  | .num tj :: rest => tj_items W (tj_adjust gs tj) rest

/-- One operator case of the `process_stream` match (src/processor.rs:67-371).
Panics are modelled by `none`. -/
def step (W : Option Nat → Nat → ℚ) (op : Op) (s : InterpState) :
    Option InterpState :=
  match op with
  | .BT =>
    some { s with
      tlm := Transform.identity,
      gs := { s.gs with ts := { s.gs.ts with tm := Transform.identity } } }
  | .ET =>
    some { s with
      tlm := Transform.identity,
      gs := { s.gs with ts := { s.gs.ts with tm := Transform.identity } } }
  | .cm mt => some { s with gs := { s.gs with ctm := s.gs.ctm.pre_transform mt } }
  | .CS v => some { s with gs := { s.gs with stroke_colorspace := v } }
  | .cs v => some { s with gs := { s.gs with fill_colorspace := v } }
  | .SC vals =>
    some { s with gs := { s.gs with
      stroke_color := if s.gs.stroke_colorspace = .Pattern then [] else vals } }
  | .sc vals =>
    some { s with gs := { s.gs with
      fill_color := if s.gs.fill_colorspace = .Pattern then [] else vals } }
  | .TJ items => (tj_items W s.gs items).map (fun gs2 => { s with gs := gs2 })
  | .Tj codes => (show_text_gs W s.gs codes).map (fun gs2 => { s with gs := gs2 })
  | .Tc a => some { s with gs := { s.gs with ts := { s.gs.ts with character_spacing := a } } }
  | .Tw a => some { s with gs := { s.gs with ts := { s.gs.ts with word_spacing := a } } }
  | .Tz a => some { s with gs := { s.gs with ts := { s.gs.ts with horizontal_scaling := a / 100 } } }
  | .TL a => some { s with gs := { s.gs with ts := { s.gs.ts with leading := a } } }
  | .Tf fontId size =>
    some { s with gs := { s.gs with
      ts := { s.gs.ts with font := some fontId, font_size := size } } }
  | .Ts a => some { s with gs := { s.gs with ts := { s.gs.ts with rise := a } } }
  | .Tm mt =>
    some { s with
      tlm := mt,
      gs := { s.gs with ts := { s.gs.ts with tm := mt } } }
  | .Td tx ty =>
    let tlm2 := s.tlm.pre_transform (Transform.create_translation tx ty)
    some { s with
      tlm := tlm2,
      gs := { s.gs with ts := { s.gs.ts with tm := tlm2 } } }
  | .TD tx ty =>
    let tlm2 := s.tlm.pre_transform (Transform.create_translation tx ty)
    some { s with
      tlm := tlm2,
      gs := { s.gs with ts := { s.gs.ts with leading := -ty, tm := tlm2 } } }
  | .Tstar =>
    let tlm2 := s.tlm.pre_transform
      (Transform.create_translation 0 (-s.gs.ts.leading))
    some { s with
      tlm := tlm2,
      gs := { s.gs with ts := { s.gs.ts with tm := tlm2 } } }
  | .q => some { s with gs_stack := s.gs :: s.gs_stack }
  | .Q =>
    match s.gs_stack with
    | [] => some s
    | top :: rest => some { s with gs := top, gs_stack := rest }
  | .gsApply smaskEntry =>
    some { s with gs := { s.gs with
      smask := match smaskEntry with
               | some entry => entry
               | none => s.gs.smask } }
  | .w a => some { s with gs := { s.gs with line_width := a } }
  | .m x yc => some { s with path := s.path ++ [.MoveTo x yc] }
  | .l x yc => some { s with path := s.path ++ [.LineTo x yc] }
  | .c x1 y1 x2 y2 x yc => some { s with path := s.path ++ [.CurveTo x1 y1 x2 y2 x yc] }
  | .v x2 y2 x yc =>
    match Path.current_point s.path with
    | none => none
    | some (cx, cy) => some { s with path := s.path ++ [.CurveTo cx cy x2 y2 x yc] }
  | .y x1 y1 x3 y3 => some { s with path := s.path ++ [.CurveTo x1 y1 x3 y3 x3 y3] }
  | .h => some { s with path := s.path ++ [.Close] }
  | .re x yv wv hv => some { s with path := s.path ++ [.Rect x yv wv hv] }
  | .S => some { s with path := [] }
  | .F => some { s with path := [] }
  | .n => some { s with path := [] }
  | .BMC tag => some { s with mc_stack := tag :: s.mc_stack }
  | .EMC => some { s with mc_stack := s.mc_stack.tail }

/-- The operator loop of `process_stream` (src/processor.rs:64-372). -/
def process_ops (W : Option Nat → Nat → ℚ) :
    List Op → InterpState → Option InterpState
  | [], s => some s
  | op :: rest, s =>
    match step W op s with
    | none => none
    | some s2 => process_ops W rest s2

/-- Here `balanced_aux ops n = true` iff, reading `ops` with `n` open `q`s, every
`Q` matches an open `q` and all are closed at the end.  `balanced_aux ops 0`
is the usual notion of a balanced operator sequence. -/
def balanced_aux : List Op → Nat → Bool
  | [], nOpen => nOpen == 0
  | .q :: rest, nOpen => balanced_aux rest (nOpen + 1)
  | .Q :: rest, nOpen => (nOpen != 0) && balanced_aux rest (nOpen - 1)
  | _ :: rest, nOpen => balanced_aux rest nOpen

/-! ## Theorems -/

theorem mapGet_mapInsert {α : Type} (k k' : Nat) (v : α) (m : List (Nat × α)) :
    mapGet (mapInsert k v m) k' = if k = k' then some v else mapGet m k' := by
  by_cases h : k = k'
  · subst h; simp [mapGet, mapInsert, List.find?_cons]
  · simp [mapGet, mapInsert, List.find?_cons, h]

/-- In `cid_code_loop`, `width` counts the bytes consumed: on success the
input splits as `width` consumed bytes (starting from the one already read)
plus the remainder. -/
theorem cid_code_loop_length (cs : List CodeRange) :
    ∀ (n width c : Nat) (bytes : List Nat) (code wOut : Nat) (rem : List Nat),
      cid_code_loop cs n width c bytes = some ((code, wOut), rem) →
      bytes.length + width = wOut + rem.length := by
  intro n
  induction n with
  | zero => intro width c bytes code wOut rem h; simp [cid_code_loop] at h
  | succ n ih =>
    intro width c bytes code wOut rem h
    simp only [cid_code_loop] at h
    by_cases hhit : codespace_hit cs c width
    · simp [hhit] at h
      obtain ⟨⟨h1, h2⟩, h3⟩ := h
      subst h2; subst h3
      omega
    · simp [hhit] at h
      cases bytes with
      | nil => simp at h
      | cons b rest =>
        simp at h
        have := ih (width + 1) (c * 256 + b) rest code wOut rem h
        simp [List.length_cons]
        omega

/-- C1: for a CID font, when the accumulated code has matched a codespace
entry, `next_char` scans the CID ranges in order for the first whose
inclusive interval contains the code and emits
`(src_code − src_lo + dst_cid_lo, width)`; with no matching CID range it
returns `none`.  FALSE: the source (src/font.rs:872) emits
`code.0 + range.dst_CID_lo` without subtracting `src_code_lo`.  With
codespace `[(width 1, 0..255)]`, one CID range `[0x41..0x5A] → 100` and
input byte `0x42`, the code emits CID `0x42 + 100 = 166`, not
`0x42 − 0x41 + 100 = 101`. -/
theorem c1_counterexample :
    PdfCIDFont.next_char ⟨[⟨1, 0, 255⟩], [⟨65, 90, 100⟩]⟩ [66] =
      some ((166, 1), []) ∧ (166 : Nat) ≠ 66 - 65 + 100 := by
  exact ⟨rfl, by decide⟩

/-- C1 (amended): for every CID font and input whose accumulated code
matches a codespace entry (`cid_code_loop` succeeds with `(code, width)`,
`width` being the number of bytes consumed), `next_char` scans the CID
ranges in order for the first whose inclusive interval
`[src_code_lo, src_code_hi]` contains the code and emits the wrapping u32
sum `((src_code + dst_cid_lo) mod 2^32, width)` — without subtracting
`src_code_lo` — which equals `(src_code + dst_cid_lo, width)` whenever the
sum fits in a u32; if no CID range contains the code, it returns `none`. -/
theorem c1_next_char_amended (enc : ByteMapping) (b : Nat) (rest : List Nat)
    (code width : Nat) (rem : List Nat)
    (hloop : cid_code_loop enc.codespace 4 1 b rest = some ((code, width), rem)) :
    (b :: rest).length = width + rem.length ∧
    (∀ range, enc.cid.find? (fun r => decide (code ≥ r.src_code_lo) &&
        decide (code ≤ r.src_code_hi)) = some range →
      PdfCIDFont.next_char enc (b :: rest) =
        some (((code + range.dst_CID_lo) % 4294967296, width), rem) ∧
      (code + range.dst_CID_lo < 4294967296 →
        PdfCIDFont.next_char enc (b :: rest) =
          some ((code + range.dst_CID_lo, width), rem))) ∧
    (enc.cid.find? (fun r => decide (code ≥ r.src_code_lo) &&
        decide (code ≤ r.src_code_hi)) = none →
      PdfCIDFont.next_char enc (b :: rest) = none) := by
  refine ⟨?_, ?_, ?_⟩
  · have := cid_code_loop_length enc.codespace 4 1 b rest code width rem hloop
    simp [List.length_cons]
    omega
  · intro range hfind
    constructor
    · simp [PdfCIDFont.next_char, hloop, hfind]
    · intro hlt
      simp [PdfCIDFont.next_char, hloop, hfind, Nat.mod_eq_of_lt hlt]
  · intro hfind
    simp [PdfCIDFont.next_char, hloop, hfind]

/-- Disclosure for C1: the wrap in the model is real program behaviour, not
slack.  With CID range `(0, 0xFFFF, 0xFFFFFFFF)` and code `1`, the u32 sum
`1 + 0xFFFFFFFF` wraps to 0, which is what the model emits. -/
theorem next_char_wraps_at_u32 :
    PdfCIDFont.next_char ⟨[⟨2, 0, 0xFFFF⟩], [⟨0, 0xFFFF, 0xFFFFFFFF⟩]⟩
      [0x00, 0x01] = some ((0, 2), []) := rfl

/-- C1 amended, witnessed at the counterexample input: the sum `66 + 100`
fits in a u32, so the emitted pair is `(code + dst_CID_lo, width) =
(166, 1)`. -/
theorem c1_next_char_amended_witness :
    cid_code_loop (ByteMapping.codespace ⟨[⟨1, 0, 255⟩], [⟨65, 90, 100⟩]⟩) 4 1 66 [] =
      some ((66, 1), []) ∧
    List.find? (fun r => decide (66 ≥ r.src_code_lo) && decide (66 ≤ r.src_code_hi))
      (ByteMapping.cid ⟨[⟨1, 0, 255⟩], [⟨65, 90, 100⟩]⟩) = some ⟨65, 90, 100⟩ ∧
    66 + 100 < 4294967296 ∧
    PdfCIDFont.next_char ⟨[⟨1, 0, 255⟩], [⟨65, 90, 100⟩]⟩ [66] =
      some ((66 + 100, 1), []) :=
  ⟨rfl, rfl, by norm_num,
    ((c1_next_char_amended ⟨[⟨1, 0, 255⟩], [⟨65, 90, 100⟩]⟩ 66 [] 66 1 [] rfl).2.1
      ⟨65, 90, 100⟩ rfl).2 (by norm_num)⟩

/-- C2: the claim reads `<c_first> <c_last> <w>` from three consecutive
array elements and assigns `w` to the CIDs in `[c_first, c_last)`.  The
source instead reads all three values from `w[i]` (src/font.rs:815-817), so
`c_first = c_last` always and the loop body never runs: on
`W = [1, 3, 500]` (range form, second element not an array) the claim
assigns width 500 to CIDs 1 and 2, but the code produces an empty width
map.  The `i += 3` cursor advance and the `"first should be num"` /
`"last should be num"` expectations show the intended reads were
`w[i]`, `w[i+1]`, `w[i+2]`: the code is the slip. -/
theorem c2_W_range_entry_assigns_nothing :
    widths_from_W [Object.Integer 1, Object.Integer 3, Object.Integer 500] [] =
      some [] ∧
    mapGet ((widths_from_W
      [Object.Integer 1, Object.Integer 3, Object.Integer 500] []).getD []) 1 =
      none :=
  ⟨rfl, rfl⟩

/-- C7: the claim takes `MissingWidth` from the font descriptor.  FALSE:
the source (src/font.rs:389) reads `MissingWidth` from the font dictionary
itself.  For a font dictionary with no `MissingWidth` entry whose
descriptor has `MissingWidth = 5`, `get_width` on an unmapped code returns
0, not 5. -/
theorem c7_counterexample :
    PdfSimpleFont.get_width
      ⟨[], simple_font_missing_width ⟨none, some ⟨some 5⟩⟩⟩ 65 = 0 ∧
    missing_width_from_descriptor ⟨none, some ⟨some 5⟩⟩ = 5 ∧
    (0 : ℚ) ≠ 5 :=
  ⟨rfl, rfl, by norm_num⟩

/-- C7 (amended): for every simple font and every character code not
present in the width map, `get_width` returns the `MissingWidth` value
taken from the *font dictionary*, or 0 when the font dictionary has no
`MissingWidth` entry. -/
theorem c7_get_width_amended (font : FontDict) (widths : List (Nat × ℚ))
    (id : Nat) (habsent : mapGet widths id = none) :
    PdfSimpleFont.get_width ⟨widths, simple_font_missing_width font⟩ id =
      match font.missingWidthEntry with
      | some mw => mw
      | none => 0 := by
  simp only [PdfSimpleFont.get_width, habsent, simple_font_missing_width]
  cases font.missingWidthEntry <;> rfl

/-- C7 amended, witnessed: a width map without code 65 and a font
dictionary carrying `MissingWidth = 7` yield width 7. -/
theorem c7_get_width_amended_witness :
    mapGet [(66, (3 : ℚ))] 65 = none ∧
    PdfSimpleFont.get_width
      ⟨[(66, (3 : ℚ))], simple_font_missing_width ⟨some 7, none⟩⟩ 65 = 7 :=
  ⟨rfl, c7_get_width_amended ⟨some 7, none⟩ [(66, (3 : ℚ))] 65 rfl⟩

/-- C4: the claim makes the separator decision an exclusive chain emitting
at most one separator per `output_character` call.  FALSE: the three checks
are independent `if` statements (src/output.rs:394-413).  With
`last_end = 1`, `last_y = 0`, `x = 5`, `y = 10`, `s = 1` the first check
(`|10| > 1.5`) writes a newline and the third (`5 > 1.1`) also writes a
space: two separators before the character. -/
theorem c4_counterexample :
    separators ⟨1, 0, true⟩ 5 10 1 = ["\n", " "] ∧
    ¬ (separators ⟨1, 0, true⟩ 5 10 1).length ≤ 1 := by
  constructor
  · norm_num [separators]
  · norm_num [separators]

/-- C4 (amended): on the first character after `begin_word` the three
separator checks run independently in order — newline when
`|y − last_y| > 1.5s`, another newline when `x < last_end` and
`|y − last_y| > 0.5s`, a space when `x > last_end + 0.1s` — so (for
`s ≥ 0`) the last two checks are mutually exclusive and at most two
separators (never a second newline together with the space) are written
before the character string. -/
theorem c4_separators_amended (st : PlainTextState) (x y s : ℚ)
    (hfc : st.first_char = true) (hs : 0 ≤ s) :
    separators st x y s =
      (if |y - st.last_y| > s * 1.5 then ["\n"] else []) ++
        ((if x < st.last_end ∧ |y - st.last_y| > s * 0.5 then ["\n"] else []) ++
          (if x > st.last_end + s * 0.1 then [" "] else [])) ∧
    ¬ ((x < st.last_end ∧ |y - st.last_y| > s * 0.5) ∧
        x > st.last_end + s * 0.1) ∧
    (separators st x y s).length ≤ 2 := by
  have hexcl : ¬ ((x < st.last_end ∧ |y - st.last_y| > s * 0.5) ∧
      x > st.last_end + s * 0.1) := by
    rintro ⟨⟨h1, _⟩, h3⟩
    have h01 : (0 : ℚ) ≤ s * 0.1 := by positivity
    linarith
  refine ⟨by simp [separators, hfc], hexcl, ?_⟩
  simp only [separators, hfc, if_true]
  split_ifs with h1 h2 h3 h3 h2 h3 h3 <;> simp_all

/-- C4 amended, witnessed at the counterexample input (first character set,
`s = 1 ≥ 0`). -/
theorem c4_separators_amended_witness :
    (PlainTextState.first_char ⟨1, 0, true⟩ = true ∧ (0 : ℚ) ≤ 1) ∧
    (separators ⟨1, 0, true⟩ 5 10 1 =
      (if |(10 : ℚ) - 0| > 1 * 1.5 then ["\n"] else []) ++
        ((if (5 : ℚ) < 1 ∧ |(10 : ℚ) - 0| > 1 * 0.5 then ["\n"] else []) ++
          (if (5 : ℚ) > 1 + 1 * 0.1 then [" "] else [])) ∧
      ¬ (((5 : ℚ) < 1 ∧ |(10 : ℚ) - 0| > 1 * 0.5) ∧ (5 : ℚ) > 1 + 1 * 0.1) ∧
      (separators ⟨1, 0, true⟩ 5 10 1).length ≤ 2) :=
  ⟨⟨rfl, by norm_num⟩, c4_separators_amended ⟨1, 0, true⟩ 5 10 1 rfl (by norm_num)⟩

/-- C3: in `show_text`, the spacing is `char_spacing` plus `word_spacing`
exactly when `code = 32` and `length = 1`; the text matrix is pre-translated
by `tx = horizontal_scaling × (w0 × font_size + spacing)`, `ty = 0`; and
with identity text matrix and `horizontal_scaling = 1`, showing a single
character increases `tm.e` (= `m31`) by `w0 × font_size + spacing`
(src/lib.rs:404-444). -/
theorem c3_show_text_advance (get_width : Nat → ℚ) (ts : TextState)
    (c length : Nat) :
    ((c = 32 ∧ length = 1) →
      spacing_for ts c length = ts.character_spacing + ts.word_spacing) ∧
    (¬ (c = 32 ∧ length = 1) →
      spacing_for ts c length = ts.character_spacing) ∧
    (show_text_step get_width ts c length).tm =
      Transform.mul
        (Transform.create_translation
          (ts.horizontal_scaling *
            (get_width c / 1000 * ts.font_size + spacing_for ts c length)) 0)
        ts.tm ∧
    (ts.tm = Transform.identity → ts.horizontal_scaling = 1 →
      (show_text_tm get_width ts [(c, length)]).tm.m31 =
        ts.tm.m31 + (get_width c / 1000 * ts.font_size + spacing_for ts c length)) := by
  refine ⟨?_, ?_, ?_, ?_⟩
  · intro h; simp [spacing_for, h]
  · intro h; simp [spacing_for, h]
  · simp only [show_text_step, Transform.pre_transform]
    have harg : ts.horizontal_scaling *
        ((get_width c / 1000 - 0 / 1000) * ts.font_size + spacing_for ts c length) =
        ts.horizontal_scaling *
        (get_width c / 1000 * ts.font_size + spacing_for ts c length) := by ring
    rw [harg]
  · intro htm hhs
    simp [show_text_tm, show_text_step, Transform.pre_transform, Transform.mul,
      htm, hhs, Transform.identity, Transform.create_translation]

/-- C3, witnessed: a space (`code 32`, length 1) with `get_width 32 = 2000`,
`font_size = 10`, `char_spacing = 3`, `word_spacing = 7`, identity text
matrix and unit horizontal scaling advances `m31` by
`2 × 10 + (3 + 7) = 30`. -/
theorem c3_show_text_advance_witness :
    ((32 = 32 ∧ 1 = 1) ∧
      spacing_for ⟨some 1, 10, 3, 7, 1, 0, 0, Transform.identity⟩ 32 1 = 3 + 7) ∧
    (show_text_tm (fun _ => 2000)
      ⟨some 1, 10, 3, 7, 1, 0, 0, Transform.identity⟩ [(32, 1)]).tm.m31 =
      0 + (2000 / 1000 * 10 +
        spacing_for ⟨some 1, 10, 3, 7, 1, 0, 0, Transform.identity⟩ 32 1) := by
  have h := c3_show_text_advance (fun _ => 2000)
    ⟨some 1, 10, 3, 7, 1, 0, 0, Transform.identity⟩ 32 1
  refine ⟨⟨⟨rfl, rfl⟩, ?_⟩, ?_⟩
  · exact h.1 ⟨rfl, rfl⟩
  · have := h.2.2.2 rfl rfl
    simpa [Transform.identity] using this

theorem simple_widths_loop_length (f : Int) :
    ∀ (ws : List ℚ) (i : Int) (m : List (Nat × ℚ)),
      (simple_widths_loop f i ws m).length = ws.length + m.length := by
  intro ws
  induction ws with
  | nil => intro i m; simp [simple_widths_loop]
  | cons w rest ih =>
    intro i m
    simp [simple_widths_loop, ih, mapInsert]
    omega

/-- Keys not inserted by a `simple_widths_loop` run keep their prior
binding. -/
theorem simple_widths_loop_get_away (f : Int) :
    ∀ (ws : List ℚ) (i : Int) (m : List (Nat × ℚ)) (k : Nat),
      (∀ j : Nat, j < ws.length → toU32 (f + i + j) ≠ k) →
      mapGet (simple_widths_loop f i ws m) k = mapGet m k := by
  intro ws
  induction ws with
  | nil => intro i m k _; rfl
  | cons w rest ih =>
    intro i m k hne
    rw [simple_widths_loop]
    rw [ih (i + 1) _ k ?_]
    · rw [mapGet_mapInsert, if_neg ?_]
      have h0 := hne 0 (by simp)
      simpa using h0
    · intro j hj
      have hcast : f + (i + 1) + (j : Int) = f + i + ((j : Nat) + 1 : Nat) := by
        push_cast; ring
      rw [hcast]
      exact hne (j + 1) (by simpa using Nat.succ_lt_succ hj)

/-- Each inserted key looks up the width at its index (no two keys in the
window collide because the window fits inside `[0, 2^32)`). -/
theorem simple_widths_loop_get (f : Int) :
    ∀ (ws : List ℚ) (i : Int) (m : List (Nat × ℚ)) (d : Nat)
      (hd : d < ws.length),
      0 ≤ f + i → f + i + ws.length ≤ 4294967296 →
      mapGet (simple_widths_loop f i ws m) (toU32 (f + i + d)) =
        some (ws.get ⟨d, hd⟩) := by
  intro ws
  induction ws with
  | nil => intro i m d hd; exact absurd hd (by simp)
  | cons w rest ih =>
    intro i m d hd hlow hhigh
    match d with
    | 0 =>
      rw [simple_widths_loop]
      rw [simple_widths_loop_get_away f rest (i + 1) _ (toU32 (f + i + (0 : Nat))) ?_]
      · rw [mapGet_mapInsert, if_pos (by norm_num)]
        rfl
      · intro j hj heq
        have hlen : (rest.length : Int) + 1 = ((w :: rest : List ℚ).length : Int) := by
          push_cast [List.length_cons]; ring
        unfold toU32 at heq
        simp only [List.length_cons] at hhigh
        push_cast at hhigh
        omega
    | d' + 1 =>
      rw [simple_widths_loop]
      have hcast : f + i + ((d' + 1 : Nat) : Int) = f + (i + 1) + (d' : Int) := by
        push_cast; ring
      rw [hcast]
      have := ih (i + 1) (mapInsert (toU32 (f + i)) w m) d'
        (by simpa using Nat.lt_of_succ_lt_succ (by simpa using hd))
        (by omega)
        (by simp only [List.length_cons] at hhigh; push_cast at hhigh ⊢; omega)
      simpa using this

/-- C6: for a simple font with explicit `FirstChar`/`LastChar`/`Widths`
(in-range: `0 ≤ FirstChar` and `FirstChar + |Widths| ≤ 2^32`, so the
`as CharCode` cast does not wrap), construction succeeds exactly when
`FirstChar + |Widths| − 1 = LastChar` (the `assert_eq!` of
src/font.rs:334), the width table has exactly `|Widths|` =
`LastChar − FirstChar + 1` entries, and
`width_map[FirstChar + i] = Widths[i]` for every `i < |Widths|`
(src/font.rs:315-334). -/
theorem c6_simple_font_widths (first_char last_char : Int) (ws : List ℚ)
    (h0 : 0 ≤ first_char)
    (h1 : first_char + ws.length ≤ 4294967296) :
    ((simple_font_widths first_char last_char ws).isSome ↔
      first_char + ws.length - 1 = last_char) ∧
    ∀ m, simple_font_widths first_char last_char ws = some m →
      m.length = ws.length ∧
      ∀ (d : Nat) (hd : d < ws.length),
        mapGet m (toU32 (first_char + d)) = some (ws.get ⟨d, hd⟩) := by
  constructor
  · unfold simple_font_widths
    split_ifs with h <;> simp [h]
  · intro m hm
    unfold simple_font_widths at hm
    split_ifs at hm with h
    obtain rfl : simple_widths_loop first_char 0 ws [] = m := by
      simpa using hm
    constructor
    · simpa using simple_widths_loop_length first_char ws 0 []
    · intro d hd
      have := simple_widths_loop_get first_char ws 0 [] d hd
        (by omega) (by omega)
      simpa using this

/-- C6, witnessed at `FirstChar = 65`, `LastChar = 66`,
`Widths = [500, 600]`. -/
theorem c6_simple_font_widths_witness :
    ((0 : Int) ≤ 65 ∧
      (65 : Int) + ([(500 : ℚ), 600] : List ℚ).length ≤ 4294967296) ∧
    ((simple_font_widths 65 66 [(500 : ℚ), 600]).isSome ↔
      (65 : Int) + ([(500 : ℚ), 600] : List ℚ).length - 1 = 66) ∧
    mapGet [((66 : Nat), (600 : ℚ)), (65, 500)] (toU32 (65 + ((1 : Nat) : Int))) =
      some 600 := by
  have h := c6_simple_font_widths 65 66 [(500 : ℚ), 600]
    (by norm_num) (by norm_num)
  refine ⟨⟨by norm_num, by norm_num⟩, h.1, ?_⟩
  have h2 := (h.2 [((66 : Nat), (600 : ℚ)), (65, 500)] rfl).2 1 (by norm_num)
  simpa using h2

/-- Keys that never occur in the entry list are absent from the parsed
ToUnicode map. -/
theorem get_unicode_map_entries_key_absent :
    ∀ (entries m : List (Nat × List Nat)) (k : Nat),
      get_unicode_map_entries entries = some m →
      k ∉ entries.map Prod.fst → mapGet m k = none := by
  intro entries
  induction entries with
  | nil =>
    intro m k hm _
    simp only [get_unicode_map_entries, Option.some.injEq] at hm
    subst hm; rfl
  | cons p rest ih =>
    intro m k hm hk
    obtain ⟨k0, v0⟩ := p
    simp only [get_unicode_map_entries] at hm
    cases hu : bytes_to_utf16_units v0 with
    | none => simp only [hu] at hm; exact absurd hm (by simp)
    | some units =>
      simp only [hu] at hm
      simp only [List.map_cons, List.mem_cons, not_or] at hk
      by_cases hs : is_surrogate_singleton units
      · rw [if_pos hs] at hm
        exact ih m k hm hk.2
      · rw [if_neg hs] at hm
        cases hd : utf16_decode units with
        | none => simp only [hd] at hm; exact absurd hm (by simp)
        | some s =>
          simp only [hd] at hm
          rw [Option.map_eq_some'] at hm
          obtain ⟨m', hm', rfl⟩ := hm
          rw [show ((k0, s) :: m') = mapInsert k0 s m' from rfl,
            mapGet_mapInsert, if_neg (fun h => hk.1 h.symm)]
          exact ih m' k hm' hk.2

/-- C8: when parsing a ToUnicode CMap, every entry whose UTF-16BE value is
a single code unit in the surrogate range `0xD800..=0xDFFF` is skipped
(its key is absent from the resulting map), and — provided every other
entry has an even byte count and well-formed UTF-16 (the source panics on
malformed UTF-16 outside this pattern, per `String::from_utf16().unwrap()`,
src/font.rs:724) — parsing completes with `some` map carrying exactly the
decoded remaining entries (src/font.rs:708-727). -/
theorem c8_surrogates_skipped (entries : List (Nat × List Nat))
    (hkeys : (entries.map Prod.fst).Nodup)
    (hok : ∀ p ∈ entries, ∃ units, bytes_to_utf16_units p.2 = some units ∧
      (is_surrogate_singleton units = true ∨ (utf16_decode units).isSome)) :
    ∃ m, get_unicode_map_entries entries = some m ∧
      ∀ p ∈ entries, ∀ units, bytes_to_utf16_units p.2 = some units →
        (is_surrogate_singleton units = true → mapGet m p.1 = none) ∧
        (is_surrogate_singleton units = false →
          ∀ s, utf16_decode units = some s → mapGet m p.1 = some s) := by
  induction entries with
  | nil => exact ⟨[], rfl, by simp⟩
  | cons p rest ih =>
    obtain ⟨k0, v0⟩ := p
    simp only [List.map_cons, List.nodup_cons] at hkeys
    obtain ⟨hk0, hrest⟩ := hkeys
    obtain ⟨units0, hu0, hcase⟩ := hok (k0, v0) (List.mem_cons_self _ _)
    obtain ⟨m', hm', hprop⟩ := ih hrest
      (fun p hp => hok p (List.mem_cons_of_mem _ hp))
    by_cases hs : is_surrogate_singleton units0
    · refine ⟨m', ?_, ?_⟩
      · simp only [get_unicode_map_entries, hu0]
        rw [if_pos hs]
        exact hm'
      · intro p hp units hu
        rcases List.mem_cons.mp hp with rfl | hp'
        · obtain rfl : units0 = units := Option.some.inj (hu0.symm.trans hu)
          refine ⟨fun _ => ?_, fun hs' => by simp [hs] at hs'⟩
          exact get_unicode_map_entries_key_absent rest m' k0 hm' hk0
        · exact hprop p hp' units hu
    · have hd : ∃ s0, utf16_decode units0 = some s0 := by
        rcases hcase with h | h
        · exact absurd h hs
        · exact Option.isSome_iff_exists.mp h
      obtain ⟨s0, hd0⟩ := hd
      refine ⟨(k0, s0) :: m', ?_, ?_⟩
      · simp only [get_unicode_map_entries, hu0]
        rw [if_neg hs, hd0, hm']
        rfl
      · intro p hp units hu
        rcases List.mem_cons.mp hp with rfl | hp'
        · obtain rfl : units0 = units := Option.some.inj (hu0.symm.trans hu)
          refine ⟨fun hstrue => absurd hstrue hs, fun _ s hds => ?_⟩
          obtain rfl : s0 = s := Option.some.inj (hd0.symm.trans hds)
          rw [show ((k0, s0) :: m') = mapInsert k0 s0 m' from rfl,
            mapGet_mapInsert, if_pos rfl]
        · have hne : k0 ≠ p.1 := fun h =>
            hk0 (h ▸ List.mem_map_of_mem Prod.fst hp')
          rw [show ((k0, s0) :: m') = mapInsert k0 s0 m' from rfl,
            mapGet_mapInsert, if_neg hne]
          exact hprop p hp' units hu

/-- C8, witnessed: the lone-surrogate entry `1 ↦ D800` is skipped, the
entry `2 ↦ 0041` survives and decodes to `[U+0041]`. -/
theorem c8_surrogates_skipped_witness :
    (([((1 : Nat), [(0xD8 : Nat), 0x00]), (2, [0x00, 0x41])].map Prod.fst).Nodup) ∧
    ∃ m, get_unicode_map_entries
        [((1 : Nat), [(0xD8 : Nat), 0x00]), (2, [0x00, 0x41])] = some m ∧
      mapGet m 1 = none ∧ mapGet m 2 = some [0x41] := by
  have hok : ∀ p ∈ [((1 : Nat), [(0xD8 : Nat), 0x00]), (2, [0x00, 0x41])],
      ∃ units, bytes_to_utf16_units p.2 = some units ∧
        (is_surrogate_singleton units = true ∨ (utf16_decode units).isSome) := by
    intro p hp
    rcases List.mem_cons.mp hp with rfl | hp'
    · exact ⟨[0xD800], rfl, Or.inl rfl⟩
    · rcases List.mem_cons.mp hp' with rfl | hp''
      · exact ⟨[0x41], rfl, Or.inr rfl⟩
      · exact absurd hp'' (by simp)
  obtain ⟨m, hm, hprop⟩ := c8_surrogates_skipped
    [((1 : Nat), [(0xD8 : Nat), 0x00]), (2, [0x00, 0x41])] (by decide) hok
  refine ⟨by decide, m, hm, ?_, ?_⟩
  · exact (hprop ((1 : Nat), [(0xD8 : Nat), 0x00]) (by simp) [0xD800] rfl).1 rfl
  · exact (hprop ((2 : Nat), [(0x00 : Nat), 0x41]) (by simp) [0x41] rfl).2 rfl [0x41] rfl

/-- The page loop collects exactly the pages before the first error: if
pages `k ≤ i < e` succeed and page `e` errors, the loop started at `k`
returns their contents in order. -/
theorem collect_pages_until_error (f : Nat → Except Unit String)
    (g : Nat → String) (e : Nat) :
    ∀ (fuel k : Nat), k ≤ e → e - k < fuel →
      (∀ i, k ≤ i → i < e → f i = .ok (g i)) →
      (∃ err, f e = .error err) →
      collect_pages f fuel k = (List.range' k (e - k)).map g := by
  intro fuel
  induction fuel with
  | zero => intro k _ h; omega
  | succ fuel ih =>
    intro k hk hfuel hok herr
    by_cases hke : k = e
    · subst hke
      obtain ⟨err, herr⟩ := herr
      simp [collect_pages, herr]
    · have hklt : k < e := by omega
      have hfk : f k = .ok (g k) := hok k le_rfl hklt
      rw [collect_pages, hfk]
      have hrec := ih (k + 1) (by omega) (by omega)
        (fun i h1 h2 => hok i (by omega) h2) herr
      rw [hrec]
      have hn : e - k = (e - (k + 1)) + 1 := by omega
      rw [hn, List.range'_succ, List.map_cons]

/-- C9: the by-pages extractors process pages in order starting from page 1,
stop at the first page whose extraction errors, and return `Ok` with
exactly the per-page strings of the pages processed before that error
(src/lib.rs:779-793; the `_encrypted` and `_from_mem` variants,
src/lib.rs:795-841, run the same `while let Ok` loop). -/
theorem c9_extract_text_by_pages {Doc : Type} (doc : Doc)
    (page_text : Doc → Nat → Except Unit String) (g : Nat → String)
    (e fuel : Nat) (he : 1 ≤ e) (hfuel : e ≤ fuel)
    (hok : ∀ i, 1 ≤ i → i < e → page_text doc i = .ok (g i))
    (herr : ∃ err, page_text doc e = .error err) :
    extract_text_by_pages (.ok doc) page_text fuel =
      .ok ((List.range' 1 (e - 1)).map g) := by
  simp only [extract_text_by_pages]
  rw [collect_pages_until_error (page_text doc) g e fuel 1 he (by omega) hok herr]

/-- C9, witnessed: pages 1–3 succeed, page 4 errors; the extractor returns
`Ok ["1", "2", "3"]`. -/
theorem c9_extract_text_by_pages_witness :
    (1 : Nat) ≤ 4 ∧ (4 : Nat) ≤ 10 ∧
    extract_text_by_pages (Except.ok () : Except Unit Unit)
      (fun _ k => if k < 4 then .ok (toString k) else .error ()) 10 =
      .ok ((List.range' 1 (4 - 1)).map (fun k => toString k)) := by
  refine ⟨by norm_num, by norm_num, ?_⟩
  exact c9_extract_text_by_pages ()
    (fun _ k => if k < 4 then .ok (toString k) else .error ())
    (fun k => toString k) 4 10 (by norm_num) (by norm_num)
    (fun i h1 h2 => by interval_cases i <;> rfl) ⟨(), rfl⟩

/-- Only `q` and `Q` touch the graphics-state stack: every other operator
leaves `gs_stack` unchanged. -/
theorem step_gs_stack_of_ne (W : Option Nat → Nat → ℚ) (op : Op)
    (s s' : InterpState) (hq : op ≠ Op.q) (hQ : op ≠ Op.Q)
    (h : step W op s = some s') : s'.gs_stack = s.gs_stack := by
  cases op <;> simp only [step] at h
  all_goals first
    | exact absurd rfl hq
    | exact absurd rfl hQ
    | (obtain rfl := Option.some.inj h; rfl)
    | (rw [Option.map_eq_some'] at h; obtain ⟨a, _, rfl⟩ := h; rfl)
    | (split at h <;>
        first
          | exact Option.noConfusion h
          | (obtain rfl := Option.some.inj h; rfl))

theorem balanced_aux_cons_ne (op : Op) (rest : List Op) (nOpen : Nat)
    (hq : op ≠ Op.q) (hQ : op ≠ Op.Q) :
    balanced_aux (op :: rest) nOpen = balanced_aux rest nOpen := by
  cases op <;> first
    | exact absurd rfl hq
    | exact absurd rfl hQ
    | rfl

theorem process_ops_append (W : Option Nat → Nat → ℚ) :
    ∀ (a b : List Op) (s : InterpState),
      process_ops W (a ++ b) s = (process_ops W a s).bind (process_ops W b) := by
  intro a
  induction a with
  | nil => intro b s; rfl
  | cons op rest ih =>
    intro b s
    cases hstep : step W op s with
    | none => simp only [List.cons_append, process_ops, hstep]; rfl
    | some s2 =>
      simp only [List.cons_append, process_ops, hstep]
      exact ih b s2

/-- Running a balanced operator sequence never pops below the entry depth
and returns to it: the part of the stack below the `nOpen` open frames is
returned unchanged. -/
theorem process_ops_balanced_stack (W : Option Nat → Nat → ℚ) :
    ∀ (ops : List Op) (nOpen : Nat) (front back : List GraphicsState)
      (s s' : InterpState),
      balanced_aux ops nOpen = true →
      s.gs_stack = front ++ back →
      front.length = nOpen →
      process_ops W ops s = some s' →
      s'.gs_stack = back := by
  intro ops
  induction ops with
  | nil =>
    intro nOpen front back s s' hbal hstack hlen hrun
    simp only [balanced_aux, beq_iff_eq] at hbal
    subst hbal
    obtain rfl : front = [] := List.length_eq_zero.mp hlen
    obtain rfl : s = s' := Option.some.inj hrun
    simpa using hstack
  | cons op rest ih =>
    intro nOpen front back s s' hbal hstack hlen hrun
    simp only [process_ops] at hrun
    cases hstep : step W op s with
    | none => rw [hstep] at hrun; exact absurd hrun (by simp)
    | some s2 =>
      rw [hstep] at hrun
      by_cases hq : op = Op.q
      · subst hq
        simp only [balanced_aux] at hbal
        simp only [step] at hstep
        obtain rfl := Option.some.inj hstep
        exact ih (nOpen + 1) (s.gs :: front) back _ s' hbal
          (by simp [hstack]) (by simp [hlen]) hrun
      · by_cases hQ : op = Op.Q
        · subst hQ
          simp only [balanced_aux, Bool.and_eq_true, bne_iff_ne] at hbal
          obtain ⟨hne, hbal'⟩ := hbal
          cases front with
          | nil => exact absurd hlen.symm hne
          | cons f front2 =>
            rw [List.cons_append] at hstack
            simp only [step, hstack] at hstep
            obtain rfl := Option.some.inj hstep
            exact ih (nOpen - 1) front2 back _ s' hbal' rfl
              (by simp at hlen; omega) hrun
        · rw [balanced_aux_cons_ne op rest nOpen hq hQ] at hbal
          have hst2 := step_gs_stack_of_ne W op s s2 hq hQ hstep
          exact ih nOpen front back s2 s' hbal (hst2.trans hstack) hlen hrun

/-- C5: for every interpreter state and every balanced operator sequence,
executing `q`, the sequence, then `Q` restores the whole graphics state
(every field: `ctm`, text state, colorspaces, colors, line width, `smask`)
and the stack to their values before the `q`; and `q` immediately followed
by `Q` is a no-op on the entire interpreter state
(src/processor.rs:261-271). -/
theorem c5_q_Q_restores (W : Option Nat → Nat → ℚ) (ops : List Op)
    (s s' : InterpState) (hbal : balanced_aux ops 0 = true)
    (hrun : process_ops W (Op.q :: (ops ++ [Op.Q])) s = some s') :
    s'.gs = s.gs ∧ s'.gs_stack = s.gs_stack ∧
      process_ops W [Op.q, Op.Q] s = some s := by
  refine ?_
  have hstep1 : step W Op.q s =
      some { s with gs_stack := s.gs :: s.gs_stack } := rfl
  simp only [process_ops, hstep1] at hrun
  rw [process_ops_append] at hrun
  cases hmid : process_ops W ops { s with gs_stack := s.gs :: s.gs_stack } with
  | none => rw [hmid] at hrun; exact absurd hrun (by simp)
  | some s2 =>
    rw [hmid] at hrun
    have hs2stack : s2.gs_stack = s.gs :: s.gs_stack :=
      process_ops_balanced_stack W ops 0 [] (s.gs :: s.gs_stack) _ s2 hbal
        rfl rfl hmid
    simp only [Option.some_bind] at hrun
    rw [process_ops] at hrun
    have hstepQ : step W Op.Q s2 =
        some { s2 with gs := s.gs, gs_stack := s.gs_stack } := by
      simp only [step, hs2stack]
    rw [hstepQ] at hrun
    obtain rfl := Option.some.inj hrun
    exact ⟨rfl, rfl, rfl⟩

/-- C5, witnessed: the balanced sequence `cm ⟨2,0,0,2,0,0⟩; w 5` inside a
`q`/`Q` bracket restores a concrete initial state. -/
theorem c5_q_Q_restores_witness :
    balanced_aux [Op.cm ⟨2, 0, 0, 2, 0, 0⟩, Op.w 5] 0 = true ∧
    (let s0 : InterpState :=
      ⟨⟨Transform.identity, ⟨none, 0, 0, 0, 1, 0, 0, Transform.identity⟩,
        none, ColorSpace.DeviceGray, [], ColorSpace.DeviceGray, [], 1⟩,
        [], Transform.identity, [], []⟩
     let sEnd : InterpState :=
      ⟨⟨Transform.identity, ⟨none, 0, 0, 0, 1, 0, 0, Transform.identity⟩,
        none, ColorSpace.DeviceGray, [], ColorSpace.DeviceGray, [], 1⟩,
        [], Transform.identity, [], []⟩
     sEnd.gs = s0.gs ∧ sEnd.gs_stack = s0.gs_stack ∧
       process_ops (fun _ _ => 0) [Op.q, Op.Q] s0 = some s0) := by
  refine ⟨rfl, ?_⟩
  exact c5_q_Q_restores (fun _ _ => 0) [Op.cm ⟨2, 0, 0, 2, 0, 0⟩, Op.w 5]
    ⟨⟨Transform.identity, ⟨none, 0, 0, 0, 1, 0, 0, Transform.identity⟩,
      none, ColorSpace.DeviceGray, [], ColorSpace.DeviceGray, [], 1⟩,
      [], Transform.identity, [], []⟩
    ⟨⟨Transform.identity, ⟨none, 0, 0, 0, 1, 0, 0, Transform.identity⟩,
      none, ColorSpace.DeviceGray, [], ColorSpace.DeviceGray, [], 1⟩,
      [], Transform.identity, [], []⟩
    rfl (by norm_num [process_ops, step, Transform.pre_transform, Transform.mul,
      Transform.identity])

/-- C10: executing `Q` on an empty graphics-state stack does not panic
(the source only prints "No state to pop", src/processor.rs:264-271): the
state is returned unchanged and interpretation of the remaining operators
continues as if the `Q` were absent. -/
theorem c10_Q_empty_stack (W : Option Nat → Nat → ℚ) (s : InterpState)
    (h : s.gs_stack = []) :
    step W Op.Q s = some s ∧
      ∀ rest : List Op, process_ops W (Op.Q :: rest) s = process_ops W rest s := by
  have hstep : step W Op.Q s = some s := by
    simp only [step, h]
  exact ⟨hstep, fun rest => by rw [process_ops, hstep]⟩

/-- C10, witnessed on a concrete empty-stack state and a `w 3` suffix. -/
theorem c10_Q_empty_stack_witness :
    (InterpState.gs_stack
      ⟨⟨Transform.identity, ⟨none, 0, 0, 0, 1, 0, 0, Transform.identity⟩,
        none, ColorSpace.DeviceGray, [], ColorSpace.DeviceGray, [], 1⟩,
        [], Transform.identity, [], []⟩ = []) ∧
    step (fun _ _ => 0) Op.Q
      ⟨⟨Transform.identity, ⟨none, 0, 0, 0, 1, 0, 0, Transform.identity⟩,
        none, ColorSpace.DeviceGray, [], ColorSpace.DeviceGray, [], 1⟩,
        [], Transform.identity, [], []⟩ =
      some ⟨⟨Transform.identity, ⟨none, 0, 0, 0, 1, 0, 0, Transform.identity⟩,
        none, ColorSpace.DeviceGray, [], ColorSpace.DeviceGray, [], 1⟩,
        [], Transform.identity, [], []⟩ ∧
    process_ops (fun _ _ => 0) [Op.Q, Op.w 3]
      ⟨⟨Transform.identity, ⟨none, 0, 0, 0, 1, 0, 0, Transform.identity⟩,
        none, ColorSpace.DeviceGray, [], ColorSpace.DeviceGray, [], 1⟩,
        [], Transform.identity, [], []⟩ =
      process_ops (fun _ _ => 0) [Op.w 3]
      ⟨⟨Transform.identity, ⟨none, 0, 0, 0, 1, 0, 0, Transform.identity⟩,
        none, ColorSpace.DeviceGray, [], ColorSpace.DeviceGray, [], 1⟩,
        [], Transform.identity, [], []⟩ := by
  have h := c10_Q_empty_stack (fun _ _ => 0)
    ⟨⟨Transform.identity, ⟨none, 0, 0, 0, 1, 0, 0, Transform.identity⟩,
      none, ColorSpace.DeviceGray, [], ColorSpace.DeviceGray, [], 1⟩,
      [], Transform.identity, [], []⟩ rfl
  exact ⟨rfl, h.1, h.2 [Op.w 3]⟩

end AraPdf
